import Mathlib

/-!
# Verification of Moonkit's velocity consensus hook and relay storage roots

Shallow embedding of:
* `NimbusVelocityConsensusHook::{on_state_proof, can_build_upon}`
  (pallets/author-inherent/src/consensus_hook.rs)
* `Pallet::set_relay_storage_root`
  (pallets/relay-storage-roots/src/lib.rs)

Slots (`u64`), authored counts (`u32`), relay block numbers (`u32`) and
storage roots (`H256`) are modelled as `Nat`; none of the arithmetic in the
verified paths can overflow at the values the claims exercise. Host
collaborators (the relay state proof, the highest-slot-info store, the
unincluded-segment-size query, the relay-state provider) are passed in as
explicit arguments. Panics/aborts are modelled as `none`.
-/

namespace Moonkit

/-! ## Velocity admission controller (consensus_hook.rs) -/

/-- Embedding of `NimbusVelocityConsensusHook::can_build_upon` for const
generics `V` (velocity) and `C` (unincluded segment capacity).

The highest-slot-info store (`pallet::Pallet::<T>::get_highest_slot_info()`)
is the `getHighestSlotInfo` argument; the parachain-system collaborator
`unincluded_segment_size_after` is the function argument applied to
`included_hash`. -/
def can_build_upon {Hash : Type} (V C : Nat)
    (getHighestSlotInfo : Option (Nat × Nat))
    (unincluded_segment_size_after : Hash → Nat)
    (included_hash : Hash) (new_slot : Nat) : Bool :=
  let velocity := max V 1
  match getHighestSlotInfo with
  | none => true
  | some (last_slot, authored_so_far) =>
    let size_after_included := unincluded_segment_size_after included_hash
    -- can never author when the unincluded segment is full.
    if size_after_included ≥ C then
      false
    else if last_slot == new_slot then
      decide (authored_so_far < velocity + 1)
    else
      -- disallow slot from moving backwards.
      decide (last_slot < new_slot)

/-- Embedding of `NimbusVelocityConsensusHook::on_state_proof`.

`read_slot` is the result of `state_proof.read_slot()` (`none` when the relay
slot cannot be read from the proof); `getHighestSlotInfo` is the stored
`SlotAuthorshipRecord`, defaulted to `(0, 0)` when absent; `dbReadWeight` is
the weight of one database read (`T::DbWeight::get().reads(1)`). The result
is `none` on a panic (unreadable slot, or authored count past the budget),
otherwise `some (weight, capacity)` with `capacity = max C 1`. -/
def on_state_proof (V C : Nat) (read_slot : Option Nat)
    (getHighestSlotInfo : Option (Nat × Nat))
    (dbReadWeight : Nat) : Option (Nat × Nat) :=
  let velocity := max V 1
  match read_slot with
  | none => none
  | some _relay_chain_slot =>
    let (_slot, authored) := getHighestSlotInfo.getD (0, 0)
    if authored > velocity + 1 then
      none
    else
      some (dbReadWeight, max C 1)

/-! ## Claims C1–C6 about the admission controller -/

/-- Helper: with a record present and the segment size strictly below `C`,
the same-slot branch of `can_build_upon` evaluates the budget test. -/
theorem can_build_upon_same_slot {Hash : Type} (V C : Nat)
    (sizeAfter : Hash → Nat) (h : Hash) (s a : Nat)
    (hsz : sizeAfter h < C) :
    can_build_upon V C (some (s, a)) sizeAfter h s = true ↔
      a < max V 1 + 1 := by
  simp [can_build_upon, Nat.not_le_of_lt hsz]

/-- Claim C1, as stated, is false: with `C = 0` the claim's hypothesis
"segment size below the capacity bound `max(C,1)`" is satisfied by size `0`
(`0 < max 0 1`), the record is `(10, 0)`, the candidate slot equals the
recorded slot, and `authored_so_far = 0 < max V 1 + 1`, yet `can_build_upon`
returns `false`: the code compares the segment size against the raw `C`,
not against `max(C, 1)`. -/
theorem c1_counterexample :
    0 < max 0 1 ∧
    ¬(can_build_upon 3 0 (some (10, 0)) (fun _ : Nat => 0) 0 10 = true ↔
        0 < max 3 1 + 1) := by
  constructor
  · decide
  · decide

/-- Claim C1 (amended): when a record `(last_slot, authored_so_far)` exists and
the unincluded segment size after the included hash is strictly below `C`
(the raw capacity parameter, not `max(C,1)`), `can_build_upon` at
`new_slot = last_slot` returns `true` iff `authored_so_far < max V 1 + 1`. -/
theorem c1_same_slot_budget {Hash : Type} (V C : Nat)
    (sizeAfter : Hash → Nat) (h : Hash) (last_slot authored : Nat)
    (hsz : sizeAfter h < C) :
    can_build_upon V C (some (last_slot, authored)) sizeAfter h last_slot
      = true ↔ authored < max V 1 + 1 :=
  can_build_upon_same_slot V C sizeAfter h last_slot authored hsz

/-- Witness for `c1_same_slot_budget` at `V = 3`, `C = 5`, size `2`,
record `(10, 4)`. -/
theorem c1_same_slot_budget_witness :
    (2 : Nat) < 5 ∧
    (can_build_upon 3 5 (some (10, 4)) (fun _ : Nat => 2) 0 10 = true ↔
      4 < max 3 1 + 1) :=
  ⟨by decide, c1_same_slot_budget 3 5 (fun _ : Nat => 2) 0 10 4 (by decide)⟩

/-- Claim C2, as stated, is false: with `V = 0`, `C = 5`, record `(10, 1)` and
segment size `0`, the second same-slot attempt (`k = 2`) at slot 10 returns
`true` (the code clamps the velocity to `max(V,1) = 1`, so the per-slot
budget is `2`), while the claim predicts failure since `k = 2 > V + 1 = 1`. -/
theorem c2_counterexample :
    ¬(can_build_upon 0 5 (some (10, 1)) (fun _ : Nat => 0) 0 10 = true ↔
        2 ≤ 0 + 1) := by
  decide

/-- Claim C2 (amended): the `k`-th same-slot attempt (`k ≥ 1`), seeing a record
`(s, k-1)` and a segment size strictly below `C`, succeeds iff
`k ≤ max V 1 + 1`; so the `(max V 1 + 2)`-th and later attempts fail. With
`V = 0, C = 5` the second attempt at slot 10 (record `(10,1)`) returns true
and the third (record `(10,2)`) returns false. -/
theorem c2_kth_attempt {Hash : Type} (V C : Nat)
    (sizeAfter : Hash → Nat) (h : Hash) (s k : Nat)
    (hk : 1 ≤ k) (hsz : sizeAfter h < C) :
    can_build_upon V C (some (s, k - 1)) sizeAfter h s = true ↔
      k ≤ max V 1 + 1 := by
  rw [can_build_upon_same_slot V C sizeAfter h s (k - 1) hsz]
  omega

/-- Witness for `c2_kth_attempt`: with `V = 0`, `C = 5`, the second attempt
(`k = 2`) at slot 10 succeeds since `2 ≤ max 0 1 + 1`. -/
theorem c2_kth_attempt_witness :
    (1 ≤ 2 ∧ (0 : Nat) < 5) ∧
    (can_build_upon 0 5 (some (10, 2 - 1)) (fun _ : Nat => 0) 0 10 = true ↔
      2 ≤ max 0 1 + 1) :=
  ⟨⟨by decide, by decide⟩,
    c2_kth_attempt 0 5 (fun _ : Nat => 0) 0 10 2 (by decide) (by decide)⟩

/-- Claim C3 (confirmed): when a record exists and the unincluded segment size
after the included hash is at least `max C 1`, `can_build_upon` returns
`false`, whatever the candidate slot and the recorded authored count. -/
theorem c3_segment_full {Hash : Type} (V C : Nat)
    (info : Option (Nat × Nat)) (r : Nat × Nat)
    (sizeAfter : Hash → Nat) (h : Hash) (new_slot : Nat)
    (hinfo : info = some r)
    (hsz : max C 1 ≤ sizeAfter h) :
    can_build_upon V C info sizeAfter h new_slot = false := by
  subst hinfo
  obtain ⟨last_slot, authored⟩ := r
  have hC : C ≤ sizeAfter h := le_trans (le_max_left C 1) hsz
  simp [can_build_upon, hC]

/-- Witness for `c3_segment_full` at `C = 3`, size `3`, record `(10, 0)`,
candidate slot `11`. -/
theorem c3_segment_full_witness :
    (some ((10 : Nat), (0 : Nat)) = some (10, 0) ∧ max 3 1 ≤ 3) ∧
    can_build_upon 2 3 (some (10, 0)) (fun _ : Nat => 3) 0 11 = false :=
  ⟨⟨rfl, by decide⟩,
    c3_segment_full 2 3 (some (10, 0)) (10, 0) (fun _ : Nat => 3) 0 11 rfl
      (by decide)⟩

/-- Claim C4, as stated, is false: with `C = 0` the claim's hypothesis
"segment size below the capacity bound `max(C,1)`" holds at size `0`, the
record is `(10, 0)`, the candidate slot `11` differs from and exceeds the
recorded slot, yet `can_build_upon` returns `false` because the code
compares the size against the raw `C`. -/
theorem c4_counterexample :
    0 < max 0 1 ∧
    ¬(can_build_upon 3 0 (some (10, 0)) (fun _ : Nat => 0) 0 11 = true ↔
        10 < 11) := by
  constructor
  · decide
  · decide

/-- Claim C4 (amended): when a record `(last_slot, authored)` exists, the
unincluded segment size after the included hash is strictly below `C`, and
the candidate slot differs from `last_slot`, `can_build_upon` returns `true`
iff the candidate slot is strictly greater than `last_slot`; in particular
it returns `false` for every smaller candidate slot. -/
theorem c4_forward_progress {Hash : Type} (V C : Nat)
    (sizeAfter : Hash → Nat) (h : Hash) (last_slot authored new_slot : Nat)
    (hsz : sizeAfter h < C) (hne : last_slot ≠ new_slot) :
    can_build_upon V C (some (last_slot, authored)) sizeAfter h new_slot
      = true ↔ last_slot < new_slot := by
  simp [can_build_upon, Nat.not_le_of_lt hsz, hne]

/-- Witness for `c4_forward_progress` at record `(10, 0)`, candidate `9`. -/
theorem c4_forward_progress_witness :
    ((2 : Nat) < 5 ∧ (10 : Nat) ≠ 9) ∧
    (can_build_upon 3 5 (some (10, 0)) (fun _ : Nat => 2) 0 9 = true ↔
      10 < 9) :=
  ⟨⟨by decide, by decide⟩,
    c4_forward_progress 3 5 (fun _ : Nat => 2) 0 10 0 9 (by decide)
      (by decide)⟩

/-- Claim C5 (confirmed): when the highest-slot-info store returns `none`,
`can_build_upon` returns `true` for every velocity, capacity, candidate
slot, included hash and segment-size function. -/
theorem c5_no_record {Hash : Type} (V C : Nat)
    (sizeAfter : Hash → Nat) (h : Hash) (new_slot : Nat) :
    can_build_upon V C none sizeAfter h new_slot = true := rfl

/-- Claim C6 (confirmed): `on_state_proof` aborts iff the relay slot is
unreadable or the recorded authored count (defaulting to `(0,0)`) exceeds
`max V 1 + 1`; any non-aborting run returns the weight of one storage read
together with the capacity `max C 1`; and under a readable slot and
`authored ≤ max V 1 + 1` the abort branch is unreachable. -/
theorem c6_on_state_proof (V C : Nat) (read_slot : Option Nat)
    (info : Option (Nat × Nat)) (w : Nat) :
    (on_state_proof V C read_slot info w = none ↔
      read_slot = none ∨ max V 1 + 1 < (info.getD (0, 0)).2) ∧
    (∀ p, on_state_proof V C read_slot info w = some p →
      p = (w, max C 1)) ∧
    (read_slot ≠ none → (info.getD (0, 0)).2 ≤ max V 1 + 1 →
      (on_state_proof V C read_slot info w).isSome = true) := by
  cases read_slot with
  | none => simp [on_state_proof]
  | some rs =>
    cases info with
    | none => simp [on_state_proof]
    | some p =>
      obtain ⟨s, a⟩ := p
      by_cases hab : max V 1 + 1 < a
      · refine ⟨?_, ?_, ?_⟩ <;> simp [on_state_proof, hab]
      · refine ⟨?_, ?_, ?_⟩ <;> simp [on_state_proof, hab]

/-- Witness for `c6_on_state_proof` (its last two conjuncts carry
hypotheses) at `V = 0`, `C = 0`, a readable slot `7`, record `(10, 1)`,
read weight `25`: the hook returns `some (25, max 0 1)`. -/
theorem c6_on_state_proof_witness :
    (some (7 : Nat) ≠ none ∧
      ((some ((10 : Nat), (1 : Nat))).getD (0, 0)).2 ≤ max 0 1 + 1) ∧
    (on_state_proof 0 0 (some 7) (some (10, 1)) 25).isSome = true :=
  ⟨⟨by decide, by decide⟩,
    (c6_on_state_proof 0 0 (some 7) (some (10, 1)) 25).2.2 (by decide)
      (by decide)⟩

/-! ## Bounded relay-root history (relay-storage-roots/src/lib.rs)

`RelayStorageRoot` is a `StorageMap<RelayBlockNumber, H256>`; we model it as
an association list kept in insertion order (no key occurs twice, which the
insert operation preserves). `RelayStorageRootKeys` is a
`BoundedVec<RelayBlockNumber, MaxStorageRoots>`, modelled as a plain list
truncated to the bound on every write, exactly as
`BoundedVec::truncate_from` does. -/

/-- `StorageMap::contains_key` on the association-list model. -/
def containsKey (m : List (Nat × Nat)) (k : Nat) : Bool :=
  m.any (fun p => p.1 == k)

/-- `StorageMap::insert`: overwrite when the key is present, append
otherwise. -/
def mapInsert (m : List (Nat × Nat)) (k v : Nat) : List (Nat × Nat) :=
  if containsKey m k then m.map (fun p => if p.1 == k then (k, v) else p)
  else m ++ [(k, v)]

/-- `StorageMap::remove`. -/
def mapRemove (m : List (Nat × Nat)) (k : Nat) : List (Nat × Nat) :=
  m.filter (fun p => p.1 != k)

/-- The pallet's persistent storage: the `RelayStorageRoot` map and the
`RelayStorageRootKeys` list. -/
structure RelayState where
  relayStorageRoot : List (Nat × Nat)
  relayStorageRootKeys : List Nat
deriving DecidableEq

/-- Storage at chain genesis: both items empty. -/
def emptyRelayState : RelayState := ⟨[], []⟩

/-- Embedding of `Pallet::set_relay_storage_root`, parametrised by the
current `MaxStorageRoots` value `M` and by the relay-state provider's answer
`(relayBlockNumber, relayStateRoot)`: skip when the number already has a map
entry; otherwise insert into the map and push the number at the back of the
key list; if the list length now exceeds `M`, pop the front key and remove
it from the map; finally store the list truncated to its first `M` elements
(`BoundedVec::truncate_from`). -/
def set_relay_storage_root (M relayBlockNumber relayStateRoot : Nat)
    (s : RelayState) : RelayState :=
  if containsKey s.relayStorageRoot relayBlockNumber then s
  else
    let root1 := mapInsert s.relayStorageRoot relayBlockNumber relayStateRoot
    let keys1 := s.relayStorageRootKeys ++ [relayBlockNumber]
    let popped :=
      if keys1.length > M then (mapRemove root1 (keys1.headD 0), keys1.tail)
      else (root1, keys1)
    { relayStorageRoot := popped.1, relayStorageRootKeys := popped.2.take M }

/-- One `on_finalize` per local block: fold `set_relay_storage_root` over a
sequence of relay-state observations. -/
def runCalls (M : Nat) (inputs : List (Nat × Nat)) (s : RelayState) :
    RelayState :=
  inputs.foldl (fun t p => set_relay_storage_root M p.1 p.2 t) s

/-! ### Helper lemmas on the association-list map -/

theorem containsKey_eq_true_iff (m : List (Nat × Nat)) (k : Nat) :
    containsKey m k = true ↔ k ∈ m.map Prod.fst := by
  simp [containsKey, List.any_eq_true, List.mem_map]

theorem containsKey_eq_false_iff (m : List (Nat × Nat)) (k : Nat) :
    containsKey m k = false ↔ k ∉ m.map Prod.fst := by
  rw [← Bool.not_eq_true, containsKey_eq_true_iff]

theorem containsKey_append (m₁ m₂ : List (Nat × Nat)) (k : Nat) :
    containsKey (m₁ ++ m₂) k = (containsKey m₁ k || containsKey m₂ k) := by
  simp [containsKey, List.any_append]

theorem mapInsert_of_absent {m : List (Nat × Nat)} {k : Nat} (v : Nat)
    (h : containsKey m k = false) : mapInsert m k v = m ++ [(k, v)] := by
  simp [mapInsert, h]

theorem mapRemove_of_absent {m : List (Nat × Nat)} {k : Nat}
    (h : containsKey m k = false) : mapRemove m k = m := by
  rw [containsKey_eq_false_iff] at h
  rw [mapRemove, List.filter_eq_self]
  intro p hp
  simp only [bne_iff_ne, ne_eq]
  intro hpk
  exact h (hpk ▸ List.mem_map_of_mem Prod.fst hp)

theorem mapRemove_cons_head {p : Nat × Nat} {m : List (Nat × Nat)} {k : Nat}
    (hp : p.1 = k) (h : containsKey m k = false) :
    mapRemove (p :: m) k = m := by
  rw [mapRemove, List.filter_cons]
  simp only [hp, bne_self_eq_false, if_false]
  exact mapRemove_of_absent h

theorem containsKey_cons (p : Nat × Nat) (m : List (Nat × Nat)) (k : Nat) :
    containsKey (p :: m) k = (p.1 == k || containsKey m k) := rfl

theorem containsKey_mapRemove_of_ne {m : List (Nat × Nat)} {k j : Nat}
    (hne : k ≠ j) : containsKey (mapRemove m j) k = containsKey m k := by
  induction m with
  | nil => rfl
  | cons p rest ih =>
    by_cases hp : p.1 = j
    · have h1 : mapRemove (p :: rest) j = mapRemove rest j := by
        simp [mapRemove, List.filter_cons, hp]
      have h2 : containsKey (p :: rest) k = containsKey rest k := by
        rw [containsKey_cons]
        simp [hp, Ne.symm hne]
      rw [h1, ih, h2]
    · have h1 : mapRemove (p :: rest) j = p :: mapRemove rest j := by
        simp [mapRemove, List.filter_cons, hp]
      rw [h1, containsKey_cons, containsKey_cons, ih]

theorem mapRemove_append (m₁ m₂ : List (Nat × Nat)) (k : Nat) :
    mapRemove (m₁ ++ m₂) k = mapRemove m₁ k ++ mapRemove m₂ k :=
  List.filter_append ..

theorem containsKey_append_single (m : List (Nat × Nat)) (k v : Nat) :
    containsKey (m ++ [(k, v)]) k = true := by
  rw [containsKey_append]
  simp [containsKey]

/-! ### Case equations for `set_relay_storage_root` -/

/-- The early-return branch: a relay block number that already has a map
entry leaves the state untouched. -/
theorem set_relay_storage_root_of_present {M num root : Nat}
    {s : RelayState} (h : containsKey s.relayStorageRoot num = true) :
    set_relay_storage_root M num root s = s := by
  rw [set_relay_storage_root, if_pos h]

/-- Fresh number, list still within the bound: insert and append. -/
theorem set_relay_storage_root_fits {M num root : Nat} {s : RelayState}
    (h : containsKey s.relayStorageRoot num = false)
    (hl : (s.relayStorageRootKeys ++ [num]).length ≤ M) :
    set_relay_storage_root M num root s =
      ⟨s.relayStorageRoot ++ [(num, root)],
        (s.relayStorageRootKeys ++ [num]).take M⟩ := by
  simp only [set_relay_storage_root, h, Bool.false_eq_true, if_false,
    mapInsert_of_absent root h, gt_iff_lt, Nat.not_lt_of_le hl, if_false]

/-- Fresh number, list overflowing the bound: insert, append, pop the front
key from both the list and the map, then truncate to the bound. -/
theorem set_relay_storage_root_evict {M num root : Nat} {s : RelayState}
    (h : containsKey s.relayStorageRoot num = false)
    (hl : M < (s.relayStorageRootKeys ++ [num]).length) :
    set_relay_storage_root M num root s =
      ⟨mapRemove (s.relayStorageRoot ++ [(num, root)])
          ((s.relayStorageRootKeys ++ [num]).headD 0),
        ((s.relayStorageRootKeys ++ [num]).tail).take M⟩ := by
  simp only [set_relay_storage_root, h, Bool.false_eq_true, if_false,
    mapInsert_of_absent root h, gt_iff_lt, hl, if_true]

/-! ### Claim C7: idempotence per relay block number -/

/-- Claim C7 (confirmed): if the provider's relay block number already has an
entry in `RelayStorageRoot`, `set_relay_storage_root` is a no-op on both the
map and the key list; and (for states satisfying the storage invariant that
every listed key has a map entry) calling it twice with the same relay block
number leaves the state after the second call equal to the state after the
first. -/
theorem c7_idempotent (M num root : Nat) (s : RelayState)
    (hwf : ∀ k ∈ s.relayStorageRootKeys,
      containsKey s.relayStorageRoot k = true) :
    (containsKey s.relayStorageRoot num = true →
      set_relay_storage_root M num root s = s) ∧
    set_relay_storage_root M num root (set_relay_storage_root M num root s) =
      set_relay_storage_root M num root s := by
  refine ⟨fun h => set_relay_storage_root_of_present h, ?_⟩
  by_cases hc : containsKey s.relayStorageRoot num = true
  · rw [set_relay_storage_root_of_present hc,
      set_relay_storage_root_of_present hc]
  · have hc' : containsKey s.relayStorageRoot num = false :=
      Bool.not_eq_true _ ▸ eq_false_of_ne_true hc
    have hnk : num ∉ s.relayStorageRootKeys := fun hmem => hc (hwf num hmem)
    by_cases hl : M < (s.relayStorageRootKeys ++ [num]).length
    · rw [set_relay_storage_root_evict hc' hl]
      cases hk : s.relayStorageRootKeys with
      | nil =>
        have hM : M = 0 := by
          rw [hk] at hl
          simp at hl
          omega
        subst hM
        have hmap : mapRemove (s.relayStorageRoot ++ [(num, root)]) num =
            s.relayStorageRoot := by
          rw [mapRemove_append, mapRemove_of_absent hc']
          simp [mapRemove]
        simp only [List.nil_append, List.headD_cons, List.tail_cons,
          List.take_nil, hmap]
        rw [set_relay_storage_root_evict (s := ⟨s.relayStorageRoot, []⟩) hc'
          (by simp)]
        simp [hmap]
      | cons k0 t =>
        have hk0 : k0 ≠ num := by
          intro he
          exact hnk (hk ▸ (he ▸ List.mem_cons_self k0 t))
        have hhead : ((k0 :: t) ++ [num]).headD 0 = k0 := rfl
        rw [hhead]
        apply set_relay_storage_root_of_present
        show containsKey (mapRemove (s.relayStorageRoot ++ [(num, root)]) k0)
          num = true
        rw [containsKey_mapRemove_of_ne (fun he => hk0 he.symm)]
        exact containsKey_append_single ..
    · rw [set_relay_storage_root_fits hc' (Nat.le_of_not_lt hl)]
      apply set_relay_storage_root_of_present
      show containsKey (s.relayStorageRoot ++ [(num, root)]) num = true
      exact containsKey_append_single ..

/-- Witness for `c7_idempotent`: `M = 2`, state with map `{(5, 50)}` and key
list `[5]`, observing relay block `5` (no-op) and then checking the double
call with relay block `6`. -/
theorem c7_idempotent_witness :
    (∀ k ∈ (RelayState.mk [(5, 50)] [5]).relayStorageRootKeys,
      containsKey (RelayState.mk [(5, 50)] [5]).relayStorageRoot k = true) ∧
    ((containsKey (RelayState.mk [(5, 50)] [5]).relayStorageRoot 6 = true →
      set_relay_storage_root 2 6 60 ⟨[(5, 50)], [5]⟩ = ⟨[(5, 50)], [5]⟩) ∧
    set_relay_storage_root 2 6 60
        (set_relay_storage_root 2 6 60 ⟨[(5, 50)], [5]⟩) =
      set_relay_storage_root 2 6 60 ⟨[(5, 50)], [5]⟩) :=
  ⟨by decide, c7_idempotent 2 6 60 ⟨[(5, 50)], [5]⟩ (by decide)⟩

/-! ### Leaked map entries persist -/

/-- A leaked map entry — present in the map but absent from the key list —
survives one further `set_relay_storage_root` call, still outside the
list. -/
theorem leak_persists_step (M num root k : Nat) (s : RelayState)
    (hmap : containsKey s.relayStorageRoot k = true)
    (hkeys : k ∉ s.relayStorageRootKeys) :
    containsKey (set_relay_storage_root M num root s).relayStorageRoot k
        = true ∧
      k ∉ (set_relay_storage_root M num root s).relayStorageRootKeys := by
  by_cases hc : containsKey s.relayStorageRoot num = true
  · rw [set_relay_storage_root_of_present hc]
    exact ⟨hmap, hkeys⟩
  · have hc' : containsKey s.relayStorageRoot num = false :=
      eq_false_of_ne_true hc
    have hknum : k ≠ num := fun he => hc (he ▸ hmap)
    have hmap1 : containsKey (s.relayStorageRoot ++ [(num, root)]) k
        = true := by
      rw [containsKey_append, hmap, Bool.true_or]
    have hkeys1 : k ∉ s.relayStorageRootKeys ++ [num] := by
      intro hm
      rcases List.mem_append.mp hm with h | h
      · exact hkeys h
      · exact hknum (List.mem_singleton.mp h)
    by_cases hl : M < (s.relayStorageRootKeys ++ [num]).length
    · rw [set_relay_storage_root_evict hc' hl]
      refine ⟨?_, ?_⟩
      · have hhead : (s.relayStorageRootKeys ++ [num]).headD 0
            ∈ s.relayStorageRootKeys ++ [num] := by
          cases s.relayStorageRootKeys <;> simp
        have hne : k ≠ (s.relayStorageRootKeys ++ [num]).headD 0 :=
          fun he => hkeys1 (he ▸ hhead)
        rw [containsKey_mapRemove_of_ne hne]
        exact hmap1
      · intro hmem
        exact hkeys1
          ((List.tail_sublist _).mem (List.mem_of_mem_take hmem))
    · rw [set_relay_storage_root_fits hc' (Nat.le_of_not_lt hl)]
      exact ⟨hmap1, fun hmem => hkeys1 (List.mem_of_mem_take hmem)⟩

/-- A leaked map entry survives any further sequence of
`set_relay_storage_root` calls: it is never evicted, because eviction only
reaches keys referenced by the list. -/
theorem leak_persists_run (M : Nat) (future : List (Nat × Nat)) (k : Nat)
    (s : RelayState)
    (hmap : containsKey s.relayStorageRoot k = true)
    (hkeys : k ∉ s.relayStorageRootKeys) :
    containsKey (runCalls M future s).relayStorageRoot k = true ∧
      k ∉ (runCalls M future s).relayStorageRootKeys := by
  induction future generalizing s with
  | nil => exact ⟨hmap, hkeys⟩
  | cons p rest ih =>
    have h1 := leak_persists_step M p.1 p.2 k s hmap hkeys
    exact ih (set_relay_storage_root M p.1 p.2 s) h1.1 h1.2

/-! ### Claim C9: degraded mode after lowering `MaxStorageRoots` -/

/-- Claim C9, as stated, is false on its own motivating scenario: with the
bound lowered to `M = 2` over a state holding five entries, the very first
`set_relay_storage_root` call truncates the key list to length `2 ≤ M`
(never leaving it over the bound after a call), and the leaked map entries
`4, 5, 6` are still in the map — and off the list — after three further
calls, not amortised away. -/
theorem c9_counterexample :
    (set_relay_storage_root 2 6 60
        ⟨[(1, 10), (2, 20), (3, 30), (4, 40), (5, 50)],
          [1, 2, 3, 4, 5]⟩).relayStorageRootKeys.length ≤ 2 ∧
    runCalls 2 [(6, 60), (7, 70), (8, 80), (9, 90)]
        ⟨[(1, 10), (2, 20), (3, 30), (4, 40), (5, 50)], [1, 2, 3, 4, 5]⟩ =
      ⟨[(4, 40), (5, 50), (6, 60), (8, 80), (9, 90)], [8, 9]⟩ := by
  constructor
  · decide
  · decide

/-- Claim C9 (amended): after any inserting `set_relay_storage_root` call the
key list holds at most `M` entries (the over-long list left by lowering
`MaxStorageRoots` is truncated by the first such call, not kept over the
bound); each call evicts at most one entry from the map (any evicted key
equals the popped front of the pushed list); and an over-bound entry leaked
in the map — present in the map but dropped from the key list — is never
cleaned up by later calls. -/
theorem c9_truncation_single_eviction_leak (M num root k : Nat)
    (s : RelayState)
    (hfresh : containsKey s.relayStorageRoot num = false)
    (hleak : containsKey s.relayStorageRoot k = true)
    (hnk : k ∉ s.relayStorageRootKeys) :
    (set_relay_storage_root M num root s).relayStorageRootKeys.length ≤ M ∧
    (∀ j, containsKey s.relayStorageRoot j = true →
      containsKey (set_relay_storage_root M num root s).relayStorageRoot j
        = false →
      j = (s.relayStorageRootKeys ++ [num]).headD 0) ∧
    (∀ future : List (Nat × Nat),
      containsKey
          (runCalls M future
            (set_relay_storage_root M num root s)).relayStorageRoot k
        = true ∧
      k ∉ (runCalls M future
            (set_relay_storage_root M num root s)).relayStorageRootKeys) := by
  refine ⟨?_, ?_, ?_⟩
  · by_cases hl : M < (s.relayStorageRootKeys ++ [num]).length
    · rw [set_relay_storage_root_evict hfresh hl]
      exact List.length_take_le ..
    · rw [set_relay_storage_root_fits hfresh (Nat.le_of_not_lt hl)]
      exact List.length_take_le ..
  · intro j hj hj'
    by_cases hl : M < (s.relayStorageRootKeys ++ [num]).length
    · rw [set_relay_storage_root_evict hfresh hl] at hj'
      by_contra hne
      rw [containsKey_mapRemove_of_ne hne, containsKey_append, hj,
        Bool.true_or] at hj'
      exact Bool.true_eq_false.mp hj'
    · rw [set_relay_storage_root_fits hfresh (Nat.le_of_not_lt hl)] at hj'
      rw [containsKey_append, hj, Bool.true_or] at hj'
      exact absurd hj' (by simp)
  · intro future
    have h1 := leak_persists_step M num root k s hleak hnk
    exact leak_persists_run M future k _ h1.1 h1.2

/-- Witness for `c9_truncation_single_eviction_leak`: bound lowered to
`M = 2`, five stored entries with `4` already leaked off the list, fresh
relay block `6`. -/
theorem c9_truncation_single_eviction_leak_witness :
    (containsKey [(1, 10), (2, 20), (3, 30), (4, 40)] 6 = false ∧
      containsKey [(1, 10), (2, 20), (3, 30), (4, 40)] 4 = true ∧
      4 ∉ [1, 2, 3]) ∧
    (set_relay_storage_root 2 6 60
        ⟨[(1, 10), (2, 20), (3, 30), (4, 40)],
          [1, 2, 3]⟩).relayStorageRootKeys.length ≤ 2 :=
  ⟨⟨by decide, by decide, by decide⟩,
    (c9_truncation_single_eviction_leak 2 6 60 4
      ⟨[(1, 10), (2, 20), (3, 30), (4, 40)], [1, 2, 3]⟩ (by decide)
      (by decide) (by decide)).1⟩

/-! ### Claim C10: truncation of an over-long key list -/

/-- Claim C10 (confirmed): an inserting call over a pre-call key list of
length at least `M + 1` (satisfying the storage invariants: listed keys have
map entries and the list has no duplicates) leaves the key list equal to the
first `M` elements of the pre-call list with its front removed and the new
number appended; the keys dropped by that truncation — the most recently
appended ones, `num` among them — keep their map entries with no key-list
reference, and stay that way across every future sequence of calls. -/
theorem c10_truncate_drops_recent_keys (M num root : Nat) (s : RelayState)
    (hlen : M + 1 ≤ s.relayStorageRootKeys.length)
    (hfresh : containsKey s.relayStorageRoot num = false)
    (hsub : ∀ j ∈ s.relayStorageRootKeys,
      containsKey s.relayStorageRoot j = true)
    (hnd : s.relayStorageRootKeys.Nodup) :
    (set_relay_storage_root M num root s).relayStorageRootKeys =
      (s.relayStorageRootKeys.tail ++ [num]).take M ∧
    (∀ k ∈ s.relayStorageRootKeys.tail.drop M ++ [num],
      containsKey (set_relay_storage_root M num root s).relayStorageRoot k
          = true ∧
        k ∉ (set_relay_storage_root M num root s).relayStorageRootKeys) ∧
    (∀ future : List (Nat × Nat),
      ∀ k ∈ s.relayStorageRootKeys.tail.drop M ++ [num],
      containsKey
          (runCalls M future
            (set_relay_storage_root M num root s)).relayStorageRoot k
          = true ∧
        k ∉ (runCalls M future
              (set_relay_storage_root M num root s)).relayStorageRootKeys) := by
  obtain ⟨k0, t, hk⟩ : ∃ k0 t, s.relayStorageRootKeys = k0 :: t := by
    cases hq : s.relayStorageRootKeys with
    | nil => rw [hq] at hlen; simp at hlen
    | cons a b => exact ⟨a, b, rfl⟩
  have hnum_not_mem : num ∉ s.relayStorageRootKeys := by
    intro hm
    rw [containsKey_eq_false_iff] at hfresh
    exact hfresh ((containsKey_eq_true_iff ..).mp (hsub num hm))
  have htlen : M ≤ t.length := by
    rw [hk] at hlen
    simpa using Nat.succ_le_succ_iff.mp hlen
  have hl : M < (s.relayStorageRootKeys ++ [num]).length := by
    rw [hk]
    simp
    omega
  have hs' := @set_relay_storage_root_evict M num root s hfresh hl
  have hhead : (s.relayStorageRootKeys ++ [num]).headD 0 = k0 := by
    rw [hk]; rfl
  have htail : (s.relayStorageRootKeys ++ [num]).tail = t ++ [num] := by
    rw [hk]; rfl
  rw [hhead, htail] at hs'
  have hkeys' : (set_relay_storage_root M num root s).relayStorageRootKeys
      = (s.relayStorageRootKeys.tail ++ [num]).take M := by
    rw [hs', hk]
    rfl
  have hk0t : k0 ∉ t := (List.nodup_cons.mp (hk ▸ hnd)).1
  have hndt : t.Nodup := (List.nodup_cons.mp (hk ▸ hnd)).2
  have hdropped : ∀ k ∈ s.relayStorageRootKeys.tail.drop M ++ [num],
      containsKey (set_relay_storage_root M num root s).relayStorageRoot k
          = true ∧
        k ∉ (set_relay_storage_root M num root s).relayStorageRootKeys := by
    intro k hkmem
    rw [hk] at hkmem
    simp only [List.tail_cons] at hkmem
    have hkcases : k ∈ t.drop M ∨ k = num := by
      rcases List.mem_append.mp hkmem with h | h
      · exact Or.inl h
      · exact Or.inr (List.mem_singleton.mp h)
    have hkk0 : k ≠ k0 := by
      rcases hkcases with h | h
      · exact fun he => hk0t (he ▸ List.mem_of_mem_drop h)
      · subst h
        exact fun he => hnum_not_mem (hk ▸ (he ▸ List.mem_cons_self k0 t))
    constructor
    · rw [hs', containsKey_mapRemove_of_ne hkk0, containsKey_append]
      rcases hkcases with h | h
      · have : containsKey s.relayStorageRoot k = true :=
          hsub k (hk ▸ List.mem_cons_of_mem k0 (List.mem_of_mem_drop h))
        rw [this, Bool.true_or]
      · subst h
        simp [containsKey]
    · rw [hkeys', hk]
      simp only [List.tail_cons]
      rw [List.take_append_of_le_length htlen]
      intro hmem
      rcases hkcases with h | h
      · have hsplit : t.take M ++ t.drop M = t := List.take_append_drop ..
        have : t.Nodup := hndt
        rw [← hsplit] at this
        obtain ⟨-, -, hdisj⟩ := List.nodup_append.mp this
        exact hdisj hmem h
      · subst h
        exact hnum_not_mem
          (hk ▸ List.mem_cons_of_mem k0 (List.mem_of_mem_take hmem))
  refine ⟨hkeys', hdropped, fun future k hkmem => ?_⟩
  have h2 := hdropped k hkmem
  exact leak_persists_run M future k _ h2.1 h2.2

/-- Witness for `c10_truncate_drops_recent_keys`: bound lowered to `M = 1`
over three stored entries, fresh relay block `4`: the key list becomes
`([2, 3] ++ [4]).take 1 = [2]`. -/
theorem c10_truncate_drops_recent_keys_witness :
    (1 + 1 ≤ ([1, 2, 3] : List Nat).length ∧
      containsKey [(1, 10), (2, 20), (3, 30)] 4 = false ∧
      (∀ j ∈ ([1, 2, 3] : List Nat),
        containsKey [(1, 10), (2, 20), (3, 30)] j = true) ∧
      ([1, 2, 3] : List Nat).Nodup) ∧
    (set_relay_storage_root 1 4 40
        ⟨[(1, 10), (2, 20), (3, 30)], [1, 2, 3]⟩).relayStorageRootKeys =
      (([1, 2, 3] : List Nat).tail ++ [4]).take 1 :=
  ⟨⟨by decide, by decide, by decide, by decide⟩,
    (c10_truncate_drops_recent_keys 1 4 40
      ⟨[(1, 10), (2, 20), (3, 30)], [1, 2, 3]⟩ (by decide) (by decide)
      (by decide) (by decide)).1⟩

/-! ### Exact characterization of runs from the empty state -/

/-- Running `set_relay_storage_root` from genesis over distinct relay block
numbers retains exactly the most recent `min n M` observations: the map
holds the last `min n M` input pairs in insertion order, and the key list is
their first components. -/
theorem runCalls_empty_spec (M : Nat) (inputs : List (Nat × Nat))
    (hnd : (inputs.map Prod.fst).Nodup) :
    runCalls M inputs emptyRelayState =
      ⟨inputs.drop (inputs.length - M),
        (inputs.map Prod.fst).drop (inputs.length - M)⟩ := by
  induction inputs using List.reverseRecOn with
  | nil => simp [runCalls, emptyRelayState]
  | append_singleton xs x ih =>
    have hmapapp : (xs ++ [x]).map Prod.fst = xs.map Prod.fst ++ [x.1] := by
      simp
    rw [hmapapp] at hnd
    obtain ⟨hnd1, -, hdisj⟩ := List.nodup_append.mp hnd
    have hx1 : x.1 ∉ xs.map Prod.fst :=
      fun hm => hdisj hm (List.mem_singleton_self x.1)
    have hstep : runCalls M (xs ++ [x]) emptyRelayState
        = set_relay_storage_root M x.1 x.2
            (runCalls M xs emptyRelayState) := by
      rw [runCalls, List.foldl_append]
      rfl
    have hlenxs : (xs.map Prod.fst).length = xs.length := List.length_map ..
    have hlenP : (xs ++ [x]).length = xs.length + 1 := by simp
    rw [hstep, ih hnd1, hmapapp, hlenP]
    have hcontains :
        containsKey (xs.drop (xs.length - M)) x.1 = false := by
      rw [containsKey_eq_false_iff, List.map_drop]
      exact fun hm => hx1 (List.mem_of_mem_drop hm)
    by_cases hM : xs.length < M
    · -- still below the bound: plain insert and append, no eviction
      have hd0 : xs.length - M = 0 := by omega
      have hd0' : xs.length + 1 - M = 0 := by omega
      have hlen :
          ((xs.map Prod.fst).drop (xs.length - M) ++ [x.1]).length
            ≤ M := by
        rw [hd0, List.drop_zero]
        simp
        omega
      rw [set_relay_storage_root_fits hcontains hlen]
      simp only [RelayState.mk.injEq, hd0, hd0', List.drop_zero]
      exact ⟨by simp, List.take_of_length_le (by simpa [hd0] using hlen)⟩
    · -- at the bound: the front key is popped from both list and map
      have hMn : M ≤ xs.length := Nat.le_of_not_lt hM
      have hlen2 :
          M < ((xs.map Prod.fst).drop (xs.length - M) ++ [x.1]).length := by
        simp [List.length_drop]
        omega
      rw [set_relay_storage_root_evict hcontains hlen2]
      cases hA : (xs.map Prod.fst).drop (xs.length - M) with
      | nil =>
        -- empty retained segment forces M = 0: everything is dropped
        have hM0 : M = 0 := by
          have hlA := congrArg List.length hA
          simp [List.length_drop, hlenxs] at hlA
          omega
        subst hM0
        have e1 : xs.drop (xs.length - 0) = [] := by simp
        have e2 : (xs ++ [x]).drop (xs.length + 1 - 0) = [] :=
          List.drop_eq_nil_of_le (by simp)
        have e3 : (xs.map Prod.fst ++ [x.1]).drop (xs.length + 1 - 0) = [] :=
          List.drop_eq_nil_of_le (by simp)
        rw [e1, e2, e3]
        simp [mapRemove]
      | cons a rest =>
        -- nonempty retained segment: its head `a` is the evicted key
        have hM1 : 1 ≤ M := by
          have hlA := congrArg List.length hA
          simp [List.length_drop, hlenxs] at hlA
          omega
        have hd1 : xs.length + 1 - M = (xs.length - M) + 1 := by omega
        obtain ⟨p, ps, hps⟩ :
            ∃ p ps, xs.drop (xs.length - M) = p :: ps := by
          cases hq : xs.drop (xs.length - M) with
          | nil =>
            have := hA
            rw [← List.map_drop, hq] at this
            simp at this
          | cons p ps => exact ⟨p, ps, rfl⟩
        have hfst : p.1 = a ∧ ps.map Prod.fst = rest := by
          have hA' := hA
          rw [← List.map_drop, hps] at hA'
          simp at hA'
          exact hA'
        have hndk :
            ((xs.map Prod.fst).drop (xs.length - M) ++ [x.1]).Nodup :=
          hnd.sublist ((List.drop_sublist ..).append_right _)
        rw [hA] at hndk
        rw [List.cons_append] at hndk
        have hanotin : a ∉ rest ++ [x.1] := (List.nodup_cons.mp hndk).1
        have hhead : ((a :: rest) ++ [x.1]).headD 0 = a := rfl
        have htail : ((a :: rest) ++ [x.1]).tail = rest ++ [x.1] := rfl
        rw [hps, hhead, htail]
        have hrem : mapRemove ((p :: ps) ++ [(x.1, x.2)]) a
            = ps ++ [(x.1, x.2)] := by
          rw [List.cons_append]
          refine mapRemove_cons_head hfst.1 ?_
          have hmps : (ps ++ [(x.1, x.2)]).map Prod.fst = rest ++ [x.1] := by
            rw [List.map_append, hfst.2]
            rfl
          rw [containsKey_eq_false_iff, hmps]
          exact hanotin
        rw [hrem]
        have htps : ps = xs.drop (xs.length - M + 1) := by
          have hts := congrArg List.tail hps
          rw [List.tail_drop] at hts
          simpa using hts.symm
        have hrest : rest = (xs.map Prod.fst).drop (xs.length - M + 1) := by
          have hts := congrArg List.tail hA
          rw [List.tail_drop] at hts
          simpa using hts.symm
        simp only [RelayState.mk.injEq]
        constructor
        · -- map field: the retained pairs shift forward by one
          rw [htps, hd1, List.drop_append_eq_append_drop]
          have h0 : xs.length - M + 1 - xs.length = 0 := by omega
          rw [h0, List.drop_zero]
        · -- key-list field: take M of a length-M list
          have hlenrest : (rest ++ [x.1]).length = M := by
            rw [hrest]
            simp [List.length_drop]
            omega
          rw [List.take_of_length_le (le_of_eq hlenrest), hrest, hd1,
            List.drop_append_eq_append_drop]
          have h0 : xs.length - M + 1 - (xs.map Prod.fst).length = 0 := by
            rw [hlenxs]
            omega
          rw [h0, List.drop_zero]

/-- Prefix form of `runCalls_empty_spec`: the state after the first `i`
finalize calls. -/
theorem runCalls_take_spec (M : Nat) (inputs : List (Nat × Nat))
    (hnd : (inputs.map Prod.fst).Nodup) (i : Nat) (hi : i ≤ inputs.length) :
    runCalls M (inputs.take i) emptyRelayState =
      ⟨(inputs.take i).drop (i - M),
        ((inputs.map Prod.fst).take i).drop (i - M)⟩ := by
  have h1 : ((inputs.take i).map Prod.fst).Nodup := by
    rw [List.map_take]
    exact hnd.sublist (List.take_sublist ..)
  have hlen : (inputs.take i).length = i := by
    simp [List.length_take]
    omega
  rw [runCalls_empty_spec M (inputs.take i) h1, hlen, List.map_take]

/-! ### Claim C8: bounded FIFO growth from genesis -/

/-- Claim C8 (confirmed): starting from empty state, after `n ≥ M` finalize
calls observing distinct relay block numbers (with `M = MaxStorageRoots`
constant), the key list has length exactly `M` and holds the `M` most
recently inserted numbers in insertion order; after every call the listed
keys are exactly the map's keys (in order) with list length at most `M`;
and each call evicts at most one map entry — any key present before a call
and absent after it is the front of that call's key list, and is gone from
the next list as well (so evictions proceed oldest-first). -/
theorem c8_bounded_growth (M : Nat) (inputs : List (Nat × Nat))
    (hnd : (inputs.map Prod.fst).Nodup) (hn : M ≤ inputs.length) :
    (runCalls M inputs emptyRelayState).relayStorageRootKeys.length = M ∧
    (runCalls M inputs emptyRelayState).relayStorageRootKeys =
      (inputs.map Prod.fst).drop (inputs.length - M) ∧
    (∀ i ≤ inputs.length,
      (runCalls M (inputs.take i)
          emptyRelayState).relayStorageRoot.map Prod.fst =
        (runCalls M (inputs.take i) emptyRelayState).relayStorageRootKeys ∧
      (runCalls M (inputs.take i)
          emptyRelayState).relayStorageRootKeys.length ≤ M) ∧
    (∀ i < inputs.length, ∀ k,
      containsKey (runCalls M (inputs.take i)
          emptyRelayState).relayStorageRoot k = true →
      containsKey (runCalls M (inputs.take (i + 1))
          emptyRelayState).relayStorageRoot k = false →
      k = (runCalls M (inputs.take i)
          emptyRelayState).relayStorageRootKeys.headD 0 ∧
        k ∉ (runCalls M
          (inputs.take (i + 1)) emptyRelayState).relayStorageRootKeys) := by
  have hF : (inputs.map Prod.fst).length = inputs.length :=
    List.length_map ..
  refine ⟨?_, ?_, ?_, ?_⟩
  · rw [runCalls_empty_spec M inputs hnd]
    simp [List.length_drop, hF]
    omega
  · rw [runCalls_empty_spec M inputs hnd]
  · intro i hi
    rw [runCalls_take_spec M inputs hnd i hi]
    refine ⟨?_, ?_⟩
    · rw [List.map_drop, List.map_take]
    · simp [List.length_drop, List.length_take, hF]
      omega
  · intro i hi k hk hk'
    rw [runCalls_take_spec M inputs hnd i (le_of_lt hi)] at hk
    rw [runCalls_take_spec M inputs hnd (i + 1) hi] at hk'
    rw [runCalls_take_spec M inputs hnd i (le_of_lt hi),
      runCalls_take_spec M inputs hnd (i + 1) hi]
    rw [containsKey_eq_true_iff, List.map_drop, List.map_take] at hk
    rw [containsKey_eq_false_iff, List.map_drop, List.map_take] at hk'
    by_cases hiM : i < M
    · -- no eviction yet: the segment only grows, contradiction
      exfalso
      have h0 : i - M = 0 := by omega
      have h0' : i + 1 - M = 0 := by omega
      rw [h0, List.drop_zero] at hk
      rw [h0', List.drop_zero] at hk'
      have : (inputs.map Prod.fst).take i
          = ((inputs.map Prod.fst).take (i + 1)).take i := by
        rw [List.take_take, Nat.min_eq_left (Nat.le_succ i)]
      rw [this] at hk
      exact hk' (List.mem_of_mem_take hk)
    · have hMi : M ≤ i := Nat.le_of_not_lt hiM
      by_cases hM0 : M = 0
      · -- bound zero: nothing is ever retained
        exfalso
        subst hM0
        have : ((inputs.map Prod.fst).take i).drop (i - 0) = [] :=
          List.drop_eq_nil_of_le (by simp [List.length_take])
        rw [this] at hk
        exact absurd hk (List.not_mem_nil k)
      · have hM1 : 1 ≤ M := by omega
        have hdn : i - M < (inputs.map Prod.fst).length := by omega
        -- the current window, as take of a drop
        have hwin : ((inputs.map Prod.fst).take i).drop (i - M)
            = ((inputs.map Prod.fst).drop (i - M)).take M := by
          rw [List.drop_take]
          congr 1
          omega
        have hwin' : ((inputs.map Prod.fst).take (i + 1)).drop (i + 1 - M)
            = ((inputs.map Prod.fst).drop (i - M + 1)).take M := by
          rw [List.drop_take]
          congr 2 <;> omega
        obtain ⟨a, rest, hA⟩ :
            ∃ a rest, (inputs.map Prod.fst).drop (i - M) = a :: rest := by
          cases hq : (inputs.map Prod.fst).drop (i - M) with
          | nil =>
            have := congrArg List.length hq
            simp [List.length_drop] at this
            omega
          | cons a rest => exact ⟨a, rest, rfl⟩
        have hrest : rest = (inputs.map Prod.fst).drop (i - M + 1) := by
          have hts := congrArg List.tail hA
          rw [List.tail_drop] at hts
          simpa using hts.symm
        have hkeq : ((inputs.map Prod.fst).take i).drop (i - M)
            = a :: rest.take (M - 1) := by
          rw [hwin, hA]
          cases M with
          | zero => omega
          | succ m => rw [List.take_succ_cons]; simp
        rw [hkeq] at hk
        rw [hwin', ← hrest] at hk'
        rw [hkeq]
        rcases List.mem_cons.mp hk with h | h
        · refine ⟨h, ?_⟩
          rw [hwin', ← hrest]
          exact hk'
        · -- k sits in the shared part of both windows: contradiction
          exfalso
          have : rest.take (M - 1) = (rest.take M).take (M - 1) := by
            rw [List.take_take, Nat.min_eq_left (by omega)]
          rw [this] at h
          exact hk' (List.mem_of_mem_take h)

/-- Witness for `c8_bounded_growth` at `M = 2` and three distinct
observations: the final key list has length `2`. -/
theorem c8_bounded_growth_witness :
    (([(1, 10), (2, 20), (3, 30)].map
        (Prod.fst (α := Nat) (β := Nat))).Nodup ∧
      2 ≤ [(1, 10), (2, 20), (3, 30)].length) ∧
    (runCalls 2 [(1, 10), (2, 20), (3, 30)]
        emptyRelayState).relayStorageRootKeys.length = 2 :=
  ⟨⟨by decide, by decide⟩,
    (c8_bounded_growth 2 [(1, 10), (2, 20), (3, 30)] (by decide)
      (by decide)).1⟩

end Moonkit
